import Mathlib

/-!
Verification of the text-classification core of the `lab-workshops`
classification notebook: whitespace tokenization and term-frequency vectors,
the single-word threshold classifier, a K-nearest-neighbors classifier over
count vectors, decision-boundary enumeration, and the Federalist-papers
labelling loop.
-/

namespace Classification

/-- Split a character list at separators, accumulating the (reversed) current
token; pieces between separator runs are emitted, empty pieces are dropped. -/
def splitTokens (sep : Char → Bool) : List Char → List Char → List String
  | [], cur => if cur.isEmpty then [] else [String.mk cur.reverse]
  | c :: cs, cur =>
    if sep c then
      if cur.isEmpty then splitTokens sep cs []
      else String.mk cur.reverse :: splitTokens sep cs []
    else splitTokens sep cs (c :: cur)

/-- Whitespace tokenization, as the notebook's `text.split()`: split on runs of
whitespace and drop empty pieces. -/
def tokenize (s : String) : List String :=
  splitTokens (fun c => c.isWhitespace) s.data []

/-- The predict-time vectorizer of the notebook:
`[collections.Counter(text.split()).get(w, 0) for w in words]` — the i-th entry
is the number of tokens of the document equal to the i-th vocabulary word. -/
def transform (d : String) (vocab : List String) : List Nat :=
  vocab.map (fun w => (tokenize d).count w)

/-- Modelled from the spec: the fit-time vectorizer is sklearn's
`CountVectorizer`, whose code is not part of this repository.  Its default
analyzer lowercases the text and extracts maximal alphanumeric runs, keeping
only tokens of length at least two. -/
def cvTokenize (s : String) : List String :=
  (splitTokens (fun c => !c.isAlphanum) (s.data.map Char.toLower) []).filter
    (fun t => 2 ≤ t.length)

/-- Count a vocabulary word the way the fit-time vectorizer would. -/
def cvCount (text w : String) : Nat := (cvTokenize text).count w

/-- The notebook's first classifier: predict `'archeological'` when the token
`bones` occurs more than five times, else `'medical'`. -/
def simplePredict (text : String) : String :=
  if 5 < (tokenize text).count "bones" then "archeological" else "medical"

/-- C3: the i-th entry of `transform d V` is the number of occurrences of the
token `V[i]` among the tokens of `d`, and out-of-vocabulary tokens have no
effect: the vector equals the one computed from the document restricted to
in-vocabulary tokens. -/
theorem transform_counts_and_oov :
    (∀ (d : String) (V : List String) (i : Nat), i < V.length →
      (transform d V).getD i 0 = (tokenize d).count (V.getD i "")) ∧
    (∀ (d : String) (V : List String),
      transform d V
        = V.map (fun w => ((tokenize d).filter (fun t => decide (t ∈ V))).count w)) := by
  constructor
  · intro d V i hi
    simp [transform, List.getD_eq_getElem?_getD, List.getElem?_map,
      List.getElem?_eq_getElem hi]
  · intro d V
    unfold transform
    apply List.map_congr_left
    intro w hw
    rw [List.count_filter]
    simpa using hw

/-- Witness for C3 at a concrete document and vocabulary. -/
theorem transform_counts_and_oov_witness :
    (0 < (["bones", "fossil"] : List String).length) ∧
    (transform "bones and bones" ["bones", "fossil"]).getD 0 0
      = (tokenize "bones and bones").count ((["bones", "fossil"] : List String).getD 0 "") :=
  ⟨by decide, transform_counts_and_oov.1 "bones and bones" ["bones", "fossil"] 0 (by decide)⟩

/-- C5: the vector produced by `transform` always has exactly as many entries
as the vocabulary, in vocabulary order. -/
theorem transform_length :
    ∀ (d : String) (V : List String), (transform d V).length = V.length := by
  intro d V
  simp [transform]

/-- C4: the tokenization used on a query document at predict time does NOT
agree with the fit-time vectorizer.  On the document `"Dog dog."` the
predict-time rule (case-sensitive whitespace tokens) counts the vocabulary
word `"dog"` zero times, while the fit-time rule (lowercased alphanumeric
runs) counts it twice. -/
theorem tokenization_mismatch :
    (tokenize "Dog dog.").count "dog" = 0 ∧
    cvCount "Dog dog." "dog" = 2 ∧
    (tokenize "Dog dog.").count "dog" ≠ cvCount "Dog dog." "dog" := by
  refine ⟨?_, ?_, ?_⟩ <;> decide

/-- C9: the threshold classifier returns `'archeological'` iff the token
`bones` occurs strictly more than five times, returns `'medical'` otherwise,
and always returns one of those two strings. -/
theorem simplePredict_spec :
    ∀ t : String,
      (simplePredict t = "archeological" ↔ 5 < (tokenize t).count "bones") ∧
      (simplePredict t = "medical" ↔ ¬ 5 < (tokenize t).count "bones") ∧
      (simplePredict t = "archeological" ∨ simplePredict t = "medical") := by
  intro t
  unfold simplePredict
  split
  · refine ⟨by simp_all, ?_, Or.inl rfl⟩
    simp_all [show ("archeological" : String) ≠ "medical" by decide]
  · refine ⟨?_, by simp_all, Or.inr rfl⟩
    simp_all [show ("medical" : String) ≠ "archeological" by decide]

/-! ### K-nearest-neighbors classifier

Modelled from the spec: the classifier the notebook uses is sklearn's
`KNeighborsClassifier`, whose code is not part of this repository; the
definitions below follow the spec's reference algorithm (squared Euclidean
distance, K smallest with distance ties broken toward the lower training
index, majority vote with vote ties broken toward the label occurring
earliest in nearest-to-farthest order). -/

/-- Error taxonomy of the spec's classifier core. -/
inductive KNNError where
  | emptyCorpus
  | dimensionMismatch
  | invalidK
  | notFitted
deriving DecidableEq

/-- A fitted classifier: the value of K, the feature-vector dimension, the
training vectors and their labels. -/
structure FittedClassifier where
  k : Nat
  dim : Nat
  train : List (List Int)
  labels : List String
deriving DecidableEq

/-- Well-formedness established by a successful `fit`. -/
def Fitted (c : FittedClassifier) : Prop :=
  0 < c.k ∧ c.k % 2 = 1 ∧ c.k ≤ c.train.length ∧
  c.train.length = c.labels.length ∧ ∀ v ∈ c.train, v.length = c.dim

instance (c : FittedClassifier) : Decidable (Fitted c) := by
  unfold Fitted; infer_instance

/-- Squared Euclidean distance between two count vectors. -/
def sqDist (a b : List Int) : Int :=
  (List.zipWith (fun x y => (x - y) * (x - y)) a b).sum

/-- Distance from the query to every training vector, each paired with its
original training index. -/
def dists (train : List (List Int)) (q : List Int) : List (Nat × Int) :=
  (train.map (fun v => sqDist q v)).enum

/-- Ranking order on (index, distance) pairs: smaller distance first, equal
distances broken toward the lower original training index. -/
def distLe (p q : Nat × Int) : Prop :=
  p.2 < q.2 ∨ (p.2 = q.2 ∧ p.1 ≤ q.1)

instance : DecidableRel distLe := by
  unfold distLe; infer_instance

theorem distLe_refl (p : Nat × Int) : distLe p p := Or.inr ⟨rfl, Nat.le_refl _⟩

theorem distLe_total (p q : Nat × Int) : distLe p q ∨ distLe q p := by
  unfold distLe
  rcases lt_trichotomy p.2 q.2 with h | h | h
  · exact Or.inl (Or.inl h)
  · rcases Nat.le_total p.1 q.1 with h' | h'
    · exact Or.inl (Or.inr ⟨h, h'⟩)
    · exact Or.inr (Or.inr ⟨h.symm, h'⟩)
  · exact Or.inr (Or.inl h)

theorem distLe_trans {p q s : Nat × Int} (hpq : distLe p q) (hqs : distLe q s) :
    distLe p s := by
  unfold distLe at *
  rcases hpq with h | ⟨h, h'⟩ <;> rcases hqs with g | ⟨g, g'⟩
  · exact Or.inl (h.trans g)
  · exact Or.inl (g ▸ h)
  · exact Or.inl (h ▸ g)
  · exact Or.inr ⟨h.trans g, h'.trans g'⟩

theorem distLe_antisymm {p q : Nat × Int} (hpq : distLe p q) (hqp : distLe q p) :
    p = q := by
  unfold distLe at *
  rcases hpq with h | ⟨h, h'⟩ <;> rcases hqp with g | ⟨g, g'⟩
  · exact absurd g (lt_asymm h)
  · exact absurd h (g ▸ lt_irrefl _)
  · exact absurd g (h ▸ lt_irrefl _)
  · exact Prod.ext (Nat.le_antisymm h' g') h

theorem distLe_of_not_lt {p q : Nat × Int}
    (h : ¬ (p.2 < q.2 ∨ (p.2 = q.2 ∧ p.1 < q.1))) : distLe q p := by
  push_neg at h
  obtain ⟨h1, h2⟩ := h
  rcases lt_or_eq_of_le h1 with hlt | heq
  · exact Or.inl hlt
  · exact Or.inr ⟨heq, h2 heq.symm⟩

instance : IsTotal (Nat × Int) distLe := ⟨distLe_total⟩

instance : IsTrans (Nat × Int) distLe := ⟨fun _ _ _ => distLe_trans⟩

instance : IsAntisymm (Nat × Int) distLe := ⟨fun _ _ => distLe_antisymm⟩

/-- The training indices ranked nearest-to-farthest, ties toward the lower
index. -/
def ranked (train : List (List Int)) (q : List Int) : List (Nat × Int) :=
  List.insertionSort distLe (dists train q)

/-- Look the label of each selected neighbor up by its training index. -/
def labelsOf (labs : List String) (ps : List (Nat × Int)) : List String :=
  ps.map (fun p => labs.getD p.1 "")

/-- The labels of the K nearest neighbors, nearest first. -/
def neighborLabels (c : FittedClassifier) (q : List Int) : List String :=
  labelsOf c.labels ((ranked c.train q).take c.k)

/-- Scan the candidate labels, keeping the one with the most occurrences in
`orig`; on equal counts the earlier candidate wins. -/
def bestOf (orig : List String) : List String → Option String
  | [] => none
  | c :: cs =>
    match bestOf orig cs with
    | none => some c
    | some b => if orig.count c < orig.count b then some b else some c

/-- Majority vote: the label with the highest count, vote ties broken toward
the label whose first occurrence is earliest. -/
def majority (ls : List String) : Option String := bestOf ls ls

/-- Predict the label of a query vector. -/
def predict (c : FittedClassifier) (q : List Int) : Except KNNError String :=
  if q.length = c.dim then
    match majority (neighborLabels c q) with
    | some l => Except.ok l
    | none => Except.error KNNError.notFitted
  else Except.error KNNError.dimensionMismatch

/-- Fit a classifier: K must be positive, odd and at most the number of
training examples; the vectors must match the labels in number and the
vocabulary in dimension. -/
def fit (vecs : List (List Int)) (labs : List String) (dim : Nat) (k : Int) :
    Except KNNError FittedClassifier :=
  if k ≤ 0 ∨ k % 2 = 0 ∨ (vecs.length : Int) < k then Except.error KNNError.invalidK
  else if vecs.length ≠ labs.length ∨ ¬ (∀ v ∈ vecs, v.length = dim) then
    Except.error KNNError.dimensionMismatch
  else Except.ok ⟨k.toNat, dim, vecs, labs⟩

/-- Brute-force scan for the closest training vector: keep the strictly
better pair, so the lowest index wins among equal distances. -/
def minPair : List (Nat × Int) → Option (Nat × Int)
  | [] => none
  | p :: ps =>
    match minPair ps with
    | none => some p
    | some m => if m.2 < p.2 ∨ (m.2 = p.2 ∧ m.1 < p.1) then some m else some p

/-- Modelled from the spec: decision-boundary enumeration
(`helpers.plot_decision_boundary` is not part of the repository's sources) is
a pure batch application of `predict` over an axis-aligned grid. -/
def decisionBoundary (c : FittedClassifier) (xs ys : List Int) :
    List (List (Except KNNError String)) :=
  ys.map (fun y => xs.map (fun x => predict c [x, y]))

/-- The training vectors of the spec's concrete KNN scenario. -/
def demoTrain : List (List Int) := [[10, 0], [8, 1], [0, 9], [1, 7]]

/-- The labels of the spec's concrete KNN scenario. -/
def demoLabels : List String :=
  ["archeological", "archeological", "medical", "medical"]

/-- C1: with K=3 over the scenario's training data, the query [5,1] is ranked
against the neighbors [8,1] (distance 9), [10,0] (distance 26), [1,7]
(distance 52) and classified `'archeological'`. -/
theorem demo_prediction :
    fit demoTrain demoLabels 2 3 = Except.ok ⟨3, 2, demoTrain, demoLabels⟩ ∧
    (ranked demoTrain [5, 1]).take 3 = [(1, 9), (0, 26), (3, 52)] ∧
    predict ⟨3, 2, demoTrain, demoLabels⟩ [5, 1] = Except.ok "archeological" :=
  ⟨rfl, by decide, rfl⟩

/-- C8: `fit` reports `InvalidKError` exactly when K is non-positive, even,
or exceeds the number of training examples; in particular K=4 is rejected. -/
theorem fit_invalidK_iff :
    (∀ (vecs : List (List Int)) (labs : List String) (dim : Nat) (k : Int),
      fit vecs labs dim k = Except.error KNNError.invalidK ↔
        k ≤ 0 ∨ k % 2 = 0 ∨ (vecs.length : Int) < k) ∧
    fit [[1, 0], [0, 1], [2, 2], [3, 3]] ["a", "b", "a", "b"] 2 4
      = Except.error KNNError.invalidK := by
  constructor
  · intro vecs labs dim k
    unfold fit
    split
    · simp_all
    · split <;> simp_all
  · rfl

/-! ### Properties of the majority vote -/

theorem bestOf_eq_none (orig : List String) :
    ∀ cands : List String, bestOf orig cands = none ↔ cands = [] := by
  intro cands
  cases cands with
  | nil => simp [bestOf]
  | cons c cs =>
    cases hb : bestOf orig cs with
    | none => simp [bestOf, hb]
    | some b => simp only [bestOf, hb]; split <;> simp

theorem bestOf_mem (orig : List String) :
    ∀ (cands : List String) (b : String), bestOf orig cands = some b → b ∈ cands := by
  intro cands
  induction cands with
  | nil => intro b h; simp [bestOf] at h
  | cons c cs ih =>
    intro b h
    cases hb : bestOf orig cs with
    | none =>
      simp only [bestOf, hb, Option.some.injEq] at h
      subst h
      exact List.mem_cons_self c cs
    | some b' =>
      simp only [bestOf, hb] at h
      split at h
      all_goals simp only [Option.some.injEq] at h
      all_goals subst h
      · exact List.mem_cons_of_mem c (ih b' hb)
      · exact List.mem_cons_self c cs

theorem bestOf_count_le (orig : List String) :
    ∀ (cands : List String) (b : String), bestOf orig cands = some b →
      ∀ x ∈ cands, orig.count x ≤ orig.count b := by
  intro cands
  induction cands with
  | nil => intro b h; simp [bestOf] at h
  | cons c cs ih =>
    intro b h x hx
    cases hb : bestOf orig cs with
    | none =>
      simp only [bestOf, hb, Option.some.injEq] at h
      subst h
      have hcs : cs = [] := (bestOf_eq_none orig cs).mp hb
      subst hcs
      have hxc : x = c := List.mem_singleton.mp hx
      subst hxc
      exact Nat.le_refl _
    | some b' =>
      simp only [bestOf, hb] at h
      split at h
      all_goals rename_i hcond
      all_goals simp only [Option.some.injEq] at h
      all_goals subst h
      · rcases List.mem_cons.mp hx with hxc | hx'
        · subst hxc; exact Nat.le_of_lt hcond
        · exact ih b' hb x hx'
      · rcases List.mem_cons.mp hx with hxc | hx'
        · subst hxc; exact Nat.le_refl _
        · exact Nat.le_trans (ih b' hb x hx') (Nat.le_of_not_lt hcond)

theorem bestOf_indexOf_le (orig : List String) :
    ∀ (cands : List String) (b : String), bestOf orig cands = some b →
      ∀ x ∈ cands, orig.count x = orig.count b →
        cands.indexOf b ≤ cands.indexOf x := by
  intro cands
  induction cands with
  | nil => intro b h; simp [bestOf] at h
  | cons c cs ih =>
    intro b h x hx hcount
    cases hb : bestOf orig cs with
    | none =>
      simp only [bestOf, hb, Option.some.injEq] at h
      subst h
      simp [List.indexOf_cons_self]
    | some b' =>
      simp only [bestOf, hb] at h
      split at h
      all_goals rename_i hcond
      all_goals simp only [Option.some.injEq] at h
      all_goals subst h
      · have hbc : c ≠ b' := by
          rintro rfl
          exact absurd hcond (lt_irrefl _)
        have hxc : c ≠ x := by
          rintro rfl
          exact absurd (hcount ▸ hcond) (lt_irrefl _)
        have hx' : x ∈ cs := by
          rcases List.mem_cons.mp hx with hxc' | hx'
          · exact absurd hxc'.symm hxc
          · exact hx'
        rw [List.indexOf_cons_ne cs hbc, List.indexOf_cons_ne cs hxc]
        exact Nat.succ_le_succ (ih b' hb x hx' hcount)
      · simp [List.indexOf_cons_self]

/-- The result of `majority` on a nonempty label list: it is a member of the
list, it has the maximum occurrence count, and among labels of equal count
its first occurrence is earliest. -/
theorem majority_spec (nl : List String) (h : nl ≠ []) :
    ∃ l, majority nl = some l ∧ l ∈ nl ∧
      (∀ x ∈ nl, nl.count x ≤ nl.count l) ∧
      (∀ x ∈ nl, nl.count x = nl.count l → nl.indexOf l ≤ nl.indexOf x) := by
  cases hm : bestOf nl nl with
  | none => exact absurd ((bestOf_eq_none nl nl).mp hm) h
  | some l =>
    exact ⟨l, hm, bestOf_mem nl nl l hm, bestOf_count_le nl nl l hm,
      bestOf_indexOf_le nl nl l hm⟩

/-! ### Properties of the brute-force nearest-neighbor scan -/

theorem minPair_eq_none : ∀ l : List (Nat × Int), minPair l = none ↔ l = [] := by
  intro l
  cases l with
  | nil => simp [minPair]
  | cons p ps =>
    cases hm : minPair ps with
    | none => simp [minPair, hm]
    | some m => simp only [minPair, hm]; split <;> simp

theorem minPair_mem :
    ∀ (l : List (Nat × Int)) (m : Nat × Int), minPair l = some m → m ∈ l := by
  intro l
  induction l with
  | nil => intro m h; simp [minPair] at h
  | cons p ps ih =>
    intro m h
    cases hm : minPair ps with
    | none =>
      simp only [minPair, hm, Option.some.injEq] at h
      subst h
      exact List.mem_cons_self p ps
    | some m' =>
      simp only [minPair, hm] at h
      split at h
      all_goals simp only [Option.some.injEq] at h
      all_goals subst h
      · exact List.mem_cons_of_mem p (ih m' hm)
      · exact List.mem_cons_self p ps

theorem minPair_least :
    ∀ (l : List (Nat × Int)) (m : Nat × Int), minPair l = some m →
      ∀ x ∈ l, distLe m x := by
  intro l
  induction l with
  | nil => intro m h; simp [minPair] at h
  | cons p ps ih =>
    intro m h x hx
    cases hm : minPair ps with
    | none =>
      simp only [minPair, hm, Option.some.injEq] at h
      subst h
      have hps : ps = [] := (minPair_eq_none ps).mp hm
      subst hps
      have hxp : x = p := List.mem_singleton.mp hx
      subst hxp
      exact distLe_refl x
    | some m' =>
      simp only [minPair, hm] at h
      split at h
      all_goals rename_i hcond
      all_goals simp only [Option.some.injEq] at h
      all_goals subst h
      · rcases List.mem_cons.mp hx with hxp | hx'
        · subst hxp
          exact hcond.imp id (fun g => ⟨g.1, Nat.le_of_lt g.2⟩)
        · exact ih m' hm x hx'
      · rcases List.mem_cons.mp hx with hxp | hx'
        · subst hxp
          exact distLe_refl x
        · exact distLe_trans (distLe_of_not_lt hcond) (ih m' hm x hx')

/-- A list that is a permutation of the indexed distances and sorted by the
ranking order is exactly the ranking `predict` computes. -/
theorem eq_ranked_of_sorted_perm (train : List (List Int)) (q : List Int)
    (r : List (Nat × Int)) (hperm : r.Perm (dists train q))
    (hsorted : List.Sorted distLe r) : r = ranked train q :=
  List.eq_of_perm_of_sorted
    (hperm.trans (List.perm_insertionSort distLe _).symm)
    hsorted (List.sorted_insertionSort distLe _)

theorem length_ranked (train : List (List Int)) (q : List Int) :
    (ranked train q).length = train.length := by
  rw [ranked, (List.perm_insertionSort distLe _).length_eq]
  simp [dists]

theorem neighborLabels_ne_nil (c : FittedClassifier) (hc : Fitted c)
    (q : List Int) : neighborLabels c q ≠ [] := by
  apply List.length_pos.mp
  have h1 : 0 < ((ranked c.train q).take c.k).length := by
    rw [List.length_take, length_ranked]
    exact lt_min hc.1 (lt_of_lt_of_le hc.1 hc.2.2.1)
  simpa [neighborLabels, labelsOf] using h1

/-- C2: on a fitted classifier and a query of the right dimension, `predict`
returns the result of the reference algorithm: for any ranking of the
training indices by squared Euclidean distance (ties toward the lower index),
the returned label is drawn from the labels of the first K entries, has the
maximum vote count among them, and on vote ties is the label occurring
earliest in nearest-to-farthest order. -/
theorem predict_reference (c : FittedClassifier) (hc : Fitted c)
    (q : List Int) (hq : q.length = c.dim)
    (r : List (Nat × Int)) (hperm : r.Perm (dists c.train q))
    (hsorted : List.Sorted distLe r) :
    ∃ l, predict c q = Except.ok l ∧
      l ∈ labelsOf c.labels (r.take c.k) ∧
      (∀ x ∈ labelsOf c.labels (r.take c.k),
        (labelsOf c.labels (r.take c.k)).count x
          ≤ (labelsOf c.labels (r.take c.k)).count l) ∧
      (∀ x ∈ labelsOf c.labels (r.take c.k),
        (labelsOf c.labels (r.take c.k)).count x
            = (labelsOf c.labels (r.take c.k)).count l →
          (labelsOf c.labels (r.take c.k)).indexOf l
            ≤ (labelsOf c.labels (r.take c.k)).indexOf x) := by
  rw [eq_ranked_of_sorted_perm c.train q r hperm hsorted]
  obtain ⟨l, hm, hmem, hcount, hidx⟩ :=
    majority_spec (neighborLabels c q) (neighborLabels_ne_nil c hc q)
  refine ⟨l, ?_, hmem, hcount, hidx⟩
  simp [predict, hq, hm]

/-- Witness for C2 at the spec's concrete scenario. -/
theorem predict_reference_witness :
    ∃ l, predict ⟨3, 2, demoTrain, demoLabels⟩ [5, 1] = Except.ok l ∧
      l ∈ labelsOf demoLabels
            ([((1 : Nat), (9 : Int)), (0, 26), (3, 52), (2, 89)].take 3) ∧
      (∀ x ∈ labelsOf demoLabels
            ([((1 : Nat), (9 : Int)), (0, 26), (3, 52), (2, 89)].take 3),
        (labelsOf demoLabels
            ([((1 : Nat), (9 : Int)), (0, 26), (3, 52), (2, 89)].take 3)).count x
          ≤ (labelsOf demoLabels
            ([((1 : Nat), (9 : Int)), (0, 26), (3, 52), (2, 89)].take 3)).count l) ∧
      (∀ x ∈ labelsOf demoLabels
            ([((1 : Nat), (9 : Int)), (0, 26), (3, 52), (2, 89)].take 3),
        (labelsOf demoLabels
            ([((1 : Nat), (9 : Int)), (0, 26), (3, 52), (2, 89)].take 3)).count x
            = (labelsOf demoLabels
            ([((1 : Nat), (9 : Int)), (0, 26), (3, 52), (2, 89)].take 3)).count l →
          (labelsOf demoLabels
            ([((1 : Nat), (9 : Int)), (0, 26), (3, 52), (2, 89)].take 3)).indexOf l
            ≤ (labelsOf demoLabels
            ([((1 : Nat), (9 : Int)), (0, 26), (3, 52), (2, 89)].take 3)).indexOf x) :=
  predict_reference ⟨3, 2, demoTrain, demoLabels⟩ (by decide) [5, 1] rfl
    [(1, 9), (0, 26), (3, 52), (2, 89)] (by decide) (by decide)

/-- C6: with K=1, `predict` returns exactly the label of the single closest
training vector found by the brute-force scan `minPair` (ties toward the
lower index). -/
theorem predict_k1_nearest (c : FittedClassifier) (hc : Fitted c) (hk : c.k = 1)
    (q : List Int) (hq : q.length = c.dim) :
    ∃ p, minPair (dists c.train q) = some p ∧
      predict c q = Except.ok (c.labels.getD p.1 "") := by
  have hdne : dists c.train q ≠ [] := by
    apply List.length_pos.mp
    have := lt_of_lt_of_le hc.1 hc.2.2.1
    simpa [dists] using this
  obtain ⟨m, hm⟩ : ∃ m, minPair (dists c.train q) = some m := by
    cases hmp : minPair (dists c.train q) with
    | none => exact absurd ((minPair_eq_none _).mp hmp) hdne
    | some m => exact ⟨m, rfl⟩
  have hrlen : 0 < (ranked c.train q).length := by
    rw [length_ranked]
    exact lt_of_lt_of_le hc.1 hc.2.2.1
  obtain ⟨a, t, hht⟩ : ∃ a t, ranked c.train q = a :: t := by
    cases hr : ranked c.train q with
    | nil => rw [hr] at hrlen; simp at hrlen
    | cons a t => exact ⟨a, t, rfl⟩
  have hsorted := List.sorted_insertionSort distLe (dists c.train q)
  have hperm := List.perm_insertionSort distLe (dists c.train q)
  have hleast : ∀ x ∈ dists c.train q, distLe a x := by
    intro x hx
    have hx' : x ∈ ranked c.train q := (hperm.mem_iff).mpr hx
    rw [hht] at hx'
    rcases List.mem_cons.mp hx' with hxa | hxt
    · exact hxa ▸ distLe_refl a
    · exact List.rel_of_sorted_cons (hht ▸ hsorted) x hxt
  have ham : a ∈ dists c.train q := by
    have hmem : a ∈ ranked c.train q := by
      rw [hht]; exact List.mem_cons_self a t
    exact (hperm.mem_iff).mp hmem
  have heq : m = a :=
    distLe_antisymm (minPair_least _ m hm a ham)
      (hleast m (minPair_mem _ m hm))
  refine ⟨m, hm, ?_⟩
  have hnl : neighborLabels c q = [c.labels.getD a.1 ""] := by
    simp [neighborLabels, labelsOf, hk, hht]
  rw [heq]
  simp [predict, hq, hnl, majority, bestOf]

/-- Witness for C6 on a two-point training set. -/
theorem predict_k1_nearest_witness :
    ∃ p, minPair (dists [[0, 0], [10, 10]] [1, 1]) = some p ∧
      predict ⟨1, 2, [[0, 0], [10, 10]], ["a", "b"]⟩ [1, 1]
        = Except.ok ((["a", "b"] : List String).getD p.1 "") :=
  predict_k1_nearest ⟨1, 2, [[0, 0], [10, 10]], ["a", "b"]⟩ (by decide) rfl
    [1, 1] rfl

/-- C7: each cell of the decision-boundary grid carries exactly the label a
separate single-query `predict` call returns on that cell's point. -/
theorem decisionBoundary_pointwise (c : FittedClassifier) (xs ys : List Int)
    (i j : Nat) (hi : i < ys.length) (hj : j < xs.length) :
    ((decisionBoundary c xs ys).getD i []).getD j (Except.error KNNError.notFitted)
      = predict c [xs.getD j 0, ys.getD i 0] := by
  simp [decisionBoundary, List.getD_eq_getElem?_getD, List.getElem?_map,
    List.getElem?_eq_getElem hi, List.getElem?_eq_getElem hj]

/-- Witness for C7 on a 2×2 grid over the demo classifier. -/
theorem decisionBoundary_pointwise_witness :
    ((decisionBoundary ⟨3, 2, demoTrain, demoLabels⟩ [0, 1] [0, 1]).getD 1 []).getD 0
        (Except.error KNNError.notFitted)
      = predict ⟨3, 2, demoTrain, demoLabels⟩
          [([0, 1] : List Int).getD 0 0, ([0, 1] : List Int).getD 1 0] :=
  decisionBoundary_pointwise ⟨3, 2, demoTrain, demoLabels⟩ [0, 1] [0, 1] 1 0
    (by decide) (by decide)

/-! ### The Federalist-papers training loop -/

/-- Substring containment over character lists, as Python's `needle in hay`. -/
def hasSub : List Char → List Char → Bool
  | [], needle => needle.isEmpty
  | c :: cs, needle => needle.isPrefixOf (c :: cs) || hasSub cs needle

/-- The label the loop assigns to a file path: `'hamilton' in i` gives
`'Hamilton'`, then `'madison'`, then `'jay'`; a disputed paper (none of the
three substrings) gets no label. -/
def fedLabel (path : String) : Option String :=
  if hasSub path.data "hamilton".data then some "Hamilton"
  else if hasSub path.data "madison".data then some "Madison"
  else if hasSub path.data "jay".data then some "Jay"
  else none

/-- One iteration of the loop: a labelled file appends its text to the corpus
and its label to the labels; a disputed file is skipped entirely. -/
def fedStep (acc : List String × List String) (path text : String) :
    List String × List String :=
  match fedLabel path with
  | some l => (acc.1 ++ [text], acc.2 ++ [l])
  | none => acc

/-- The whole loop over the (path, text) pairs, from empty lists. -/
def fedLoop (files : List (String × String)) : List String × List String :=
  files.foldl (fun acc f => fedStep acc f.1 f.2) ([], [])

theorem fedStep_length (path text : String) (acc : List String × List String)
    (h : acc.1.length = acc.2.length) :
    (fedStep acc path text).1.length = (fedStep acc path text).2.length := by
  unfold fedStep
  cases fedLabel path <;> simp [h]

theorem fedLabel_cases (path l : String) (h : fedLabel path = some l) :
    l = "Hamilton" ∨ l = "Madison" ∨ l = "Jay" := by
  unfold fedLabel at h
  split at h
  · exact Or.inl (Option.some.injEq _ _ ▸ h).symm
  split at h
  · exact Or.inr (Or.inl (Option.some.injEq _ _ ▸ h).symm)
  split at h
  · exact Or.inr (Or.inr (Option.some.injEq _ _ ▸ h).symm)
  · exact absurd h (by simp)

theorem fedLoop_labels_aux (files : List (String × String)) :
    ∀ acc : List String × List String,
      (∀ l ∈ acc.2, l = "Hamilton" ∨ l = "Madison" ∨ l = "Jay") →
      ∀ l ∈ (files.foldl (fun acc f => fedStep acc f.1 f.2) acc).2,
        l = "Hamilton" ∨ l = "Madison" ∨ l = "Jay" := by
  induction files with
  | nil => intro acc hacc; simpa using hacc
  | cons f fs ih =>
    intro acc hacc
    simp only [List.foldl_cons]
    apply ih
    intro l hl
    unfold fedStep at hl
    cases hf : fedLabel f.1 with
    | none => rw [hf] at hl; exact hacc l hl
    | some l' =>
      rw [hf] at hl
      simp only [List.mem_append, List.mem_singleton] at hl
      rcases hl with hl | hl
      · exact hacc l hl
      · exact hl ▸ fedLabel_cases f.1 l' hf

/-- C10: every loop iteration preserves `len(corpus) == len(labels)`, every
label ever appended is `'Hamilton'`, `'Madison'` or `'Jay'`, and a path
containing none of the substrings `'hamilton'`, `'madison'`, `'jay'` is
skipped, contributing to neither list. -/
theorem fedLoop_invariants :
    (∀ (path text : String) (acc : List String × List String),
      acc.1.length = acc.2.length →
        (fedStep acc path text).1.length = (fedStep acc path text).2.length) ∧
    (∀ files : List (String × String),
      (fedLoop files).1.length = (fedLoop files).2.length) ∧
    (∀ files : List (String × String), ∀ l ∈ (fedLoop files).2,
      l = "Hamilton" ∨ l = "Madison" ∨ l = "Jay") ∧
    (∀ (path text : String) (acc : List String × List String),
      hasSub path.data "hamilton".data = false →
      hasSub path.data "madison".data = false →
      hasSub path.data "jay".data = false →
        fedStep acc path text = acc) := by
  refine ⟨fedStep_length, ?_, ?_, ?_⟩
  · intro files
    unfold fedLoop
    have aux : ∀ (fs : List (String × String)) (acc : List String × List String),
        acc.1.length = acc.2.length →
        (fs.foldl (fun acc f => fedStep acc f.1 f.2) acc).1.length
          = (fs.foldl (fun acc f => fedStep acc f.1 f.2) acc).2.length := by
      intro fs
      induction fs with
      | nil => intro acc h; simpa using h
      | cons f fs' ih =>
        intro acc h
        simp only [List.foldl_cons]
        exact ih _ (fedStep_length f.1 f.2 acc h)
    exact aux files ([], []) rfl
  · intro files
    exact fedLoop_labels_aux files ([], []) (by simp)
  · intro path text acc h1 h2 h3
    simp [fedStep, fedLabel, h1, h2, h3]

/-- Witness for C10: a disputed path is skipped; a hamilton path keeps the
lists the same length. -/
theorem fedLoop_invariants_witness :
    fedStep ([], []) "federalist-papers/disputed/53.txt" "body" = ([], []) ∧
    (fedStep ([], []) "federalist-papers/hamilton/1.txt" "body").1.length
      = (fedStep ([], []) "federalist-papers/hamilton/1.txt" "body").2.length :=
  ⟨fedLoop_invariants.2.2.2 "federalist-papers/disputed/53.txt" "body" ([], [])
      (by decide) (by decide) (by decide),
    fedLoop_invariants.1 "federalist-papers/hamilton/1.txt" "body" ([], []) rfl⟩

end Classification
